import Mathlib

/-!
# Verification of the oscode agentic engine

A shallow embedding, in Lean 4, of the core of the `oscode` CLI coding agent:
the multi-strategy text-match engine behind the `Edit` tool
(`internal/tools/edit.go`), the permission rule engine
(`internal/permissions/rules.go` and the permission manager), the tool
registry/executor, the agent allow-list check, the agent turn loop, and the
live-agent cleanup routine.

Strings are modelled as `List Char`, one list element per byte of the Go
string (the inputs we reason about are ASCII, where Go's byte offsets and
character offsets coincide); where no slicing or scanning is needed
(tool names, rule patterns at the interface, message text) Lean `String`
is used instead.  Go loops with non-structural progress are written with an
explicit fuel argument that is always initialised to a bound the loop can
never exceed on the inputs the program can produce; the one place where the
Go original can actually diverge (an empty `old_string` with `replace_all`,
which `EditTool.Execute` rejects before searching) is noted at the
definition.  File-system, clock and channel effects are made explicit:
the edited file is threaded as a value, a provider stream is the list of
events it yields, and the backend is a function from the call index to the
outcome of that call.
-/

set_option autoImplicit false

namespace OSCode

/-! ## Byte-string helpers (Go `strings` / `unicode` functions) -/

/-- Go `unicode.IsSpace` restricted to the Latin-1 code points it accepts:
`' '`, `'\t'`, `'\n'`, `'\v'`, `'\f'`, `'\r'`, U+0085 (NEL) and U+00A0
(NBSP).  Code points above U+00FF with the Unicode space property are not
modelled; none occur in the inputs reasoned about here. -/
def goIsSpace (c : Char) : Bool :=
  c = ' ' || c = '\t' || c = '\n' || c = '\x0b' || c = '\x0c' || c = '\r' ||
  c = '\x85' || c = '\xa0'

/-- Go `strings.Index content pat`: index of the first occurrence of `pat`
in `content`, `none` when absent.  (Go returns `0` for an empty `pat`,
which `if pat.isPrefixOf s then some 0` reproduces.) -/
def strIndex : List Char → List Char → Option Nat
  | s, pat =>
    if pat.isPrefixOf s then some 0
    else
      match s with
      | [] => none
      | _ :: rest => (strIndex rest pat).map (· + 1)

/-- Go `strings.LastIndex s pat`: greatest index at which `pat` occurs. -/
def strLastIndex (s pat : List Char) : Option Nat :=
  (List.range (s.length + 1)).foldl
    (fun acc i => if pat.isPrefixOf (s.drop i) then some i else acc) none

/-- Go slice expression `s[a:b]` (for `a ≤ b ≤ s.length`). -/
def slice (s : List Char) (a b : Nat) : List Char :=
  (s.drop a).take (b - a)

/-- Go `strings.TrimSpace`: strip `goIsSpace` characters from both ends. -/
def trimSpace (s : List Char) : List Char :=
  ((s.dropWhile goIsSpace).reverse.dropWhile goIsSpace).reverse

/-- Go `strings.TrimLeft s " \t"`. -/
def trimLeftTab (s : List Char) : List Char :=
  s.dropWhile (fun c => c = ' ' || c = '\t')

/-- Go `strings.Split s (string sep)` for a single-character separator:
always yields at least one (possibly empty) part. -/
def splitOnChar (sep : Char) : List Char → List (List Char)
  | [] => [[]]
  | c :: rest =>
    let r := splitOnChar sep rest
    if c = sep then [] :: r
    else
      match r with
      | [] => [[c]]
      | l :: ls => (c :: l) :: ls

/-- Accumulator pass for `goFields`. -/
def goFieldsAux : List Char → List Char → List (List Char)
  | [], cur => if cur.isEmpty then [] else [cur.reverse]
  | c :: rest, cur =>
    if goIsSpace c then
      if cur.isEmpty then goFieldsAux rest [] else cur.reverse :: goFieldsAux rest []
    else goFieldsAux rest (c :: cur)

/-- Go `strings.Fields`: the maximal runs of non-space characters. -/
def goFields (s : List Char) : List (List Char) :=
  goFieldsAux s []

/-! ## The Edit tool's match engine (`internal/tools/edit.go`) -/

/-- `tools.Match` (edit.go:74-78): a matched span of the file content. -/
structure Match where
  Start : Nat
  End : Nat
  Text : List Char
  deriving Repr, DecidableEq

/-- Loop body of `ExactReplacer.Find` (edit.go:216-236).  The fuel argument
stands in for the unbounded Go `for`; `content.length + 1` iterations always
suffice because `start` strictly increases while `old` is non-empty.  (With
an empty `old` and `replaceAll` the Go loop never terminates; `Execute`
rejects an empty `old_string` before ever searching.) -/
def exactFindLoop (content old : List Char) (replaceAll : Bool) :
    Nat → Nat → List Match → List Match
  | 0, _, acc => acc
  | fuel + 1, start, acc =>
    match strIndex (content.drop start) old with
    | none => acc
    | some idx =>
      let absIdx := start + idx
      let m : Match := ⟨absIdx, absIdx + old.length, old⟩
      if replaceAll then
        exactFindLoop content old replaceAll fuel (absIdx + old.length) (acc ++ [m])
      else acc ++ [m]

/-- `ExactReplacer.Find` (edit.go:216-236): every non-overlapping literal
occurrence in left-to-right order, or just the first when `replaceAll`
is false. -/
def exactFind (content old : List Char) (replaceAll : Bool) : List Match :=
  exactFindLoop content old replaceAll (content.length + 1) 0 []

/-- Byte offset of line `i` of the split content: Go's
`for k := 0; k < i; k++ { start += len(contentLines[k]) + 1 }`
(edit.go:267-270 and the identical computations in the later strategies). -/
def lineStart (contentLines : List (List Char)) (i : Nat) : Nat :=
  ((contentLines.take i).map (fun l => l.length + 1)).sum

/-- End offset of an `n`-line span beginning at line `i`: Go's
`end += len(contentLines[i+k])` plus one per newline except after the very
last content line (edit.go:271-277). -/
def lineSpanEnd (contentLines : List (List Char)) (i n start : Nat) : Nat :=
  (List.range n).foldl
    (fun e k =>
      e + (contentLines.getD (i + k) []).length +
        (if i + k < contentLines.length - 1 then 1 else 0)) start

/-- The `Match` built from an `n`-line span at line `i`, including the
`if end > len(content) { end = len(content) }` clamp (edit.go:280-287). -/
def spanMatch (content : List Char) (contentLines : List (List Char)) (i n : Nat) : Match :=
  let start := lineStart contentLines i
  let e := lineSpanEnd contentLines i n start
  let e2 := if e > content.length then content.length else e
  ⟨start, e2, slice content start e2⟩

/-- Shared loop of `LineTrimmedReplacer.Find` (edit.go:243-298) and
`IndentationFlexibleReplacer.Find` (edit.go:382-439), which differ only in
the per-line normalisation `norm` (`TrimSpace` vs `TrimLeft " \t"`).
`normOld` is the pre-normalised snippet lines; the loop runs
`i` from 0 while `i ≤ contentLines.length - oldLen`, advancing by
`oldLen` past a match when `replaceAll` and returning at the first match
otherwise.  Fuel bounds the loop (`contentLines.length + 1` always
suffices since `oldLen ≥ 1` for any split). -/
def lineMatchLoop (norm : List Char → List Char) (content : List Char)
    (contentLines : List (List Char)) (oldLen : Nat) (normOld : List (List Char))
    (replaceAll : Bool) : Nat → Nat → List Match → List Match
  | 0, _, acc => acc
  | fuel + 1, i, acc =>
    if i + oldLen ≤ contentLines.length then
      if (normOld.zip (contentLines.drop i)).all (fun p => norm p.2 == p.1) then
        let m := spanMatch content contentLines i oldLen
        if replaceAll then
          lineMatchLoop norm content contentLines oldLen normOld replaceAll fuel
            (i + oldLen) (acc ++ [m])
        else acc ++ [m]
      else
        lineMatchLoop norm content contentLines oldLen normOld replaceAll fuel (i + 1) acc
    else acc

/-- `LineTrimmedReplacer.Find` (edit.go:243-298). -/
def lineTrimmedFind (content old : List Char) (replaceAll : Bool) : List Match :=
  let oldLines := splitOnChar '\n' old
  let contentLines := splitOnChar '\n' content
  lineMatchLoop trimSpace content contentLines oldLines.length (oldLines.map trimSpace)
    replaceAll (contentLines.length + 1) 0 []

/-- `IndentationFlexibleReplacer.Find` (edit.go:382-439). -/
def indentFlexFind (content old : List Char) (replaceAll : Bool) : List Match :=
  let oldLines := splitOnChar '\n' old
  let contentLines := splitOnChar '\n' content
  lineMatchLoop trimLeftTab content contentLines oldLines.length (oldLines.map trimLeftTab)
    replaceAll (contentLines.length + 1) 0 []

/-- The `for pos < contentLen && unicode.IsSpace(...)` skip of
`WhitespaceNormalizedReplacer.Find` (edit.go:342-345): the position
advanced past the whitespace run starting at `pos`. -/
def skipSpaces (content : List Char) (pos : Nat) : Nat :=
  pos + ((content.drop pos).takeWhile goIsSpace).length

/-- The inner word loop of `WhitespaceNormalizedReplacer.Find`
(edit.go:341-355): skip whitespace, then require the next word literally;
`some endPos` exactly when every word was consumed. -/
def matchWords (content : List Char) : List (List Char) → Nat → Option Nat
  | [], pos => some pos
  | w :: ws, pos =>
    if pos < content.length then
      let p := skipSpaces content pos
      if p + w.length ≤ content.length && slice content p (p + w.length) == w then
        matchWords content ws (p + w.length)
      else none
    else none

/-- Outer loop of `WhitespaceNormalizedReplacer.Find` (edit.go:329-372),
anchored at each occurrence of the snippet's first word.  `start` strictly
increases every iteration, so `content.length + 1` fuel suffices. -/
def wsNormLoop (content : List Char) (words : List (List Char)) (firstWord : List Char)
    (replaceAll : Bool) : Nat → Nat → List Match → List Match
  | 0, _, acc => acc
  | fuel + 1, start, acc =>
    if start < content.length then
      match strIndex (content.drop start) firstWord with
      | none => acc
      | some idx =>
        let absStart := start + idx
        match matchWords content words absStart with
        | some pos =>
          let m : Match := ⟨absStart, pos, slice content absStart pos⟩
          if replaceAll then
            wsNormLoop content words firstWord replaceAll fuel pos (acc ++ [m])
          else acc ++ [m]
        | none => wsNormLoop content words firstWord replaceAll fuel (absStart + 1) acc
    else acc

/-- `WhitespaceNormalizedReplacer.Find` (edit.go:305-375).  An empty word
list covers both the `normalizedOld == ""` and the `len(words) == 0`
early returns. -/
def wsNormFind (content old : List Char) (replaceAll : Bool) : List Match :=
  match goFields old with
  | [] => []
  | firstWord :: rest => wsNormLoop content (firstWord :: rest) firstWord replaceAll
      (content.length + 1) 0 []

/-- Scan loop of `BlockAnchorReplacer.Find` (edit.go:462-503); the three
`continue`s advance `i` by one, a match under `replaceAll` resumes at
`expectedEnd + 1`. -/
def blockAnchorLoop (content : List Char) (contentLines : List (List Char))
    (oldLen : Nat) (firstAnchor lastAnchor : List Char) (replaceAll : Bool) :
    Nat → Nat → List Match → List Match
  | 0, _, acc => acc
  | fuel + 1, i, acc =>
    if i < contentLines.length then
      if trimSpace (contentLines.getD i []) == firstAnchor then
        let expectedEnd := i + oldLen - 1
        if expectedEnd < contentLines.length then
          if trimSpace (contentLines.getD expectedEnd []) == lastAnchor then
            let m := spanMatch content contentLines i oldLen
            if replaceAll then
              blockAnchorLoop content contentLines oldLen firstAnchor lastAnchor
                replaceAll fuel (expectedEnd + 1) (acc ++ [m])
            else acc ++ [m]
          else
            blockAnchorLoop content contentLines oldLen firstAnchor lastAnchor
              replaceAll fuel (i + 1) acc
        else
          blockAnchorLoop content contentLines oldLen firstAnchor lastAnchor
            replaceAll fuel (i + 1) acc
      else
        blockAnchorLoop content contentLines oldLen firstAnchor lastAnchor
          replaceAll fuel (i + 1) acc
    else acc

/-- `BlockAnchorReplacer.Find` (edit.go:446-506): needs at least two
snippet lines and non-empty trimmed first and last anchors. -/
def blockAnchorFind (content old : List Char) (replaceAll : Bool) : List Match :=
  let oldLines := splitOnChar '\n' old
  if oldLines.length < 2 then []
  else
    let contentLines := splitOnChar '\n' content
    let firstAnchor := trimSpace (oldLines.getD 0 [])
    let lastAnchor := trimSpace (oldLines.getD (oldLines.length - 1) [])
    if firstAnchor.isEmpty || lastAnchor.isEmpty then []
    else blockAnchorLoop content contentLines oldLines.length firstAnchor lastAnchor
      replaceAll (contentLines.length + 1) 0 []

/-- Greedy run of `' '`/`'\t'` — the `[ \t]*` element of the pattern
`FuzzyLineReplacer.Find` builds (edit.go:519-526).  Because the literal
that follows never begins with a space or tab (it is a `TrimSpace` result)
and `'\n'` is not in the class, the greedy maximal run is exactly what
Go's leftmost-first regexp engine consumes. -/
def skipTabSpace (content : List Char) (pos : Nat) : Nat :=
  pos + ((content.drop pos).takeWhile (fun c => c = ' ' || c = '\t')).length

/-- One `[ \t]*`-plus-literal element of the fuzzy pattern, matched at
`pos`; `some` of the end position on success. -/
def fuzzyLineAt (content lit : List Char) (pos : Nat) : Option Nat :=
  let p := skipTabSpace content pos
  if p + lit.length ≤ content.length && slice content p (p + lit.length) == lit then
    some (p + lit.length)
  else none

/-- Matching the whole fuzzy pattern (lines joined by `\n`) at `pos`. -/
def fuzzyMatchFrom (content : List Char) : List (List Char) → Nat → Option Nat
  | [], pos => some pos
  | [lit], pos => fuzzyLineAt content lit pos
  | lit :: lit2 :: rest, pos =>
    match fuzzyLineAt content lit pos with
    | none => none
    | some p =>
      if p < content.length ∧ content.getD p ' ' = '\n' then
        fuzzyMatchFrom content (lit2 :: rest) (p + 1)
      else none

/-- Go `Regexp.FindAllStringIndex(content, -1)` for the fuzzy pattern:
leftmost matches, scanning resumes after each match end (one past it for
an empty match).  `content.length + 2` fuel suffices as the position
strictly increases and ranges over `0 … content.length`. -/
def fuzzyScan (content : List Char) (lits : List (List Char)) (replaceAll : Bool) :
    Nat → Nat → List Match → List Match
  | 0, _, acc => acc
  | fuel + 1, pos, acc =>
    if pos ≤ content.length then
      match fuzzyMatchFrom content lits pos with
      | some e =>
        let m : Match := ⟨pos, e, slice content pos e⟩
        if replaceAll then
          fuzzyScan content lits replaceAll fuel (if e > pos then e else pos + 1) (acc ++ [m])
        else acc ++ [m]
      | none => fuzzyScan content lits replaceAll fuel (pos + 1) acc
    else acc

/-- `FuzzyLineReplacer.Find` (edit.go:513-547): each snippet line is
trimmed, escaped literally and prefixed with `[ \t]*`; the lines are joined
by `\n` and all matches of the resulting pattern are collected (only the
first when `replaceAll` is false, matching the `break`). -/
def fuzzyLineFind (content old : List Char) (replaceAll : Bool) : List Match :=
  let lits := (splitOnChar '\n' old).map trimSpace
  fuzzyScan content lits replaceAll (content.length + 2) 0 []

/-- The strategy cascade of `EditTool.Execute` (edit.go:122-141), in
source order with the `Name()` of each replacer. -/
def replacers : List (String × (List Char → List Char → Bool → List Match)) :=
  [("exact", exactFind),
   ("line-trimmed", lineTrimmedFind),
   ("whitespace-normalized", wsNormFind),
   ("indentation-flexible", indentFlexFind),
   ("block-anchor", blockAnchorFind),
   ("fuzzy-line", fuzzyLineFind)]

/-- The `for _, replacer := range replacers` loop (edit.go:135-141): the
first strategy returning at least one match wins; with none, the used
name stays `""` and the match list empty. -/
def findFirst (content old : List Char) (replaceAll : Bool) :
    List (String × (List Char → List Char → Bool → List Match)) → String × List Match
  | [] => ("", [])
  | (name, f) :: rest =>
    let ms := f content old replaceAll
    if ms.isEmpty then findFirst content old replaceAll rest else (name, ms)

/-- The match-engine entry point used by `EditTool.Execute`. -/
def findMatches (content old : List Char) (replaceAll : Bool) : String × List Match :=
  findFirst content old replaceAll replacers

/-- The replacement loop (edit.go:163-167): substitute matched spans in
reverse offset order so earlier offsets stay valid. -/
def replaceMatches (content newStr : List Char) (ms : List Match) : List Char :=
  ms.reverse.foldl (fun cur m => cur.take m.Start ++ newStr ++ cur.drop m.End) content

/-- The distinct outcomes of `EditTool.Execute` (edit.go:80-208).  Each
error constructor corresponds to one `NewErrorResult*` site, in source
order; `success n strat` is the non-error result reporting `n`
replacements matched via strategy `strat`. -/
inductive EditResult where
  /-- edit.go:87: `file_path is required`. -/
  | errFilePathRequired
  /-- edit.go:90: `old_string is required`. -/
  | errOldRequired
  /-- edit.go:93: `old_string and new_string must be different`. -/
  | errSameStrings
  /-- edit.go:105: `File not found`. -/
  | errFileNotFound
  /-- edit.go:145-152: no strategy matched. -/
  | errNoMatch
  /-- edit.go:157-159: `Found %d occurrences … set replace_all to true`. -/
  | errAmbiguous (count : Nat)
  /-- edit.go:203-208: the success result with its metadata. -/
  | success (replacements : Nat) (strategy : String)
  deriving Repr, DecidableEq

/-- Whether the `Result` carries `IsError` (every constructor except
`success` arises from `NewErrorResult`/`NewErrorResultString`). -/
def EditResult.isError : EditResult → Bool
  | .success _ _ => false
  | _ => true

/-- The outcome of one `EditTool.Execute` call: the returned result and
the file content afterwards. -/
structure EditOutcome where
  result : EditResult
  file : Option (List Char)
  deriving Repr, DecidableEq

/-- `EditTool.Execute` (edit.go:80-208) with the file system made
explicit: `file` is the target file's content (`none` when the file does
not exist).  JSON decoding, path resolution and the read-tracking map are
outside the model; `os.WriteFile` is modelled as always succeeding. -/
def editExecute (filePath : List Char) (file : Option (List Char))
    (oldStr newStr : List Char) (replaceAll : Bool) : EditOutcome :=
  if filePath.isEmpty then ⟨.errFilePathRequired, file⟩
  else if oldStr.isEmpty then ⟨.errOldRequired, file⟩
  else if oldStr = newStr then ⟨.errSameStrings, file⟩
  else
    match file with
    | none => ⟨.errFileNotFound, none⟩
    | some content =>
      let r := findMatches content oldStr replaceAll
      if r.2.isEmpty then ⟨.errNoMatch, some content⟩
      else if replaceAll = false ∧ r.2.length > 1 then
        ⟨.errAmbiguous r.2.length, some content⟩
      else ⟨.success r.2.length r.1, some (replaceMatches content newStr r.2)⟩

/-! ## JSON values and loosely-typed tool input

Go passes tool input around both as raw JSON (`json.RawMessage`) and as a
generic `map[string]interface{}`.  `Json` models a decoded JSON value
(floats are not modelled; no claim depends on them).  A raw byte sequence
that is not valid JSON behaves exactly like any non-object value here:
unmarshalling into a map fails and the permission layer sees an empty map. -/

inductive Json where
  | null
  | bool (b : Bool)
  | num (n : Int)
  | str (s : String)
  | arr (elems : List Json)
  | obj (fields : List (String × Json))

/-- The Go idiom `v, ok := input[key].(string)`: `some` only when the key
is present and its value is a JSON string (a missing key and a non-string
value both make the type assertion fail). -/
def lookupString (input : List (String × Json)) (key : String) : Option String :=
  match input.find? (fun p => p.1 == key) with
  | some (_, .str s) => some s
  | _ => none

/-! ## Permission rules (`internal/permissions/rules.go`) -/

/-- `permissions.Action` (rules.go:18-24). -/
inductive Action where
  | allow | ask | deny
  deriving Repr, DecidableEq

/-- `permissions.Rule` (rules.go:10-15).  The Go field `Action` is spelled
`action` here to avoid clashing with the `Action` type. -/
structure Rule where
  Tool : String
  Pattern : String
  action : Action
  IsRegex : Bool
  deriving Repr, DecidableEq

/-- `permissions.ParseRule` (rules.go:29-46): `"Tool(pattern)"` or
`"Tool"`; the pattern is taken between the first `'('` and the last
`')'` only when the latter comes after the former. -/
def parseRule (ruleStr : String) (action : Action) : Rule :=
  let cs := ruleStr.toList
  match strIndex cs ['('] with
  | none => ⟨ruleStr, "", action, false⟩
  | some idx =>
    let tool := String.mk (cs.take idx)
    match strLastIndex cs [')'] with
    | some e =>
      if idx < e then ⟨tool, String.mk (slice cs (idx + 1) e), action, false⟩
      else ⟨tool, "", action, false⟩
    | none => ⟨tool, "", action, false⟩

/-- Go `strings.Contains`. -/
def goContains (s sub : String) : Bool :=
  (strIndex s.toList sub.toList).isSome

/-- Go `path/filepath.Clean` on a Unix path, by the equivalent
split-process-join formulation: drop empty and `.` elements, resolve `..`
against the stack (kept literally when the path is relative and the stack
is exhausted, dropped when rooted), and return `"."`/`"/"` for an empty
result. -/
def goClean (path : String) : String :=
  let cs := path.toList
  if cs.isEmpty then "."
  else
    let rooted := cs.head? = some '/'
    let comps := splitOnChar '/' cs
    let outRev := comps.foldl
      (fun acc c =>
        if c = [] ∨ c = ['.'] then acc
        else if c = ['.', '.'] then
          match acc with
          | [] => if rooted then [] else [['.', '.']]
          | top :: rest => if top = ['.', '.'] then c :: acc else rest
        else c :: acc)
      ([] : List (List Char))
    let joined := List.intercalate ['/'] outRev.reverse
    if joined.isEmpty then (if rooted then "/" else ".")
    else if rooted then String.mk ('/' :: joined)
    else String.mk joined

/-- Go `path/filepath.Base`: strip trailing slashes, keep the last
element; `""` gives `"."` and an all-slash path gives `"/"`. -/
def goBase (path : String) : String :=
  if path.isEmpty then "."
  else
    let cs := (path.toList.reverse.dropWhile (fun c => c == '/')).reverse
    if cs.isEmpty then "/"
    else String.mk (cs.reverse.takeWhile (fun c => c != '/')).reverse

/-- `getEsc` from Go `path/filepath`'s `Match`: one (possibly
`\`-escaped) character of a `[...]` class; `none` on a malformed class
(empty remainder, leading `-` or `]`, trailing escape, or nothing left
after the character). -/
def getEsc (chunk : List Char) : Option (Char × List Char) :=
  match chunk with
  | [] => none
  | c :: rest =>
    if c = '-' ∨ c = ']' then none
    else if c = '\\' then
      match rest with
      | [] => none
      | c2 :: rest2 => if rest2.isEmpty then none else some (c2, rest2)
    else if rest.isEmpty then none else some (c, rest)

/-- The range-parsing loop of Go `filepath.Match`'s `[...]` handling:
collects `lo-hi` (or single-character) ranges until the closing `]`,
which only closes after at least one range.  Fuel bounds the loop;
`chunk.length + 1` suffices since every step consumes input. -/
def parseClassRanges : Nat → List Char → Nat → List (Char × Char) →
    Option (List (Char × Char) × List Char)
  | 0, _, _, _ => none
  | fuel + 1, chunk, nrange, acc =>
    if chunk.head? = some ']' ∧ nrange > 0 then some (acc, chunk.tail)
    else
      match getEsc chunk with
      | none => none
      | some (lo, rest) =>
        match rest with
        | '-' :: rest2 =>
          match getEsc rest2 with
          | none => none
          | some (hi, rest3) => parseClassRanges fuel rest3 (nrange + 1) (acc ++ [(lo, hi)])
        | _ => parseClassRanges fuel rest (nrange + 1) (acc ++ [(lo, lo)])

/-- Go `path/filepath.Match` (`rules.go` calls it with the error
discarded, so a malformed pattern simply yields `false`): `*` matches any
run of non-separator characters, `?` one non-separator character, `[...]`
a character class, `\` escapes.  Stated as the standard recursive matcher,
which is equivalent to Go's chunk-and-backtrack implementation. -/
def globMatch : List Char → List Char → Bool
  | [], name => name.isEmpty
  | '*' :: ps, name =>
    globMatch ps name ||
      (match name with
       | [] => false
       | c :: rest => decide (c ≠ '/') && globMatch ('*' :: ps) rest)
  | '?' :: ps, name =>
    (match name with
     | [] => false
     | c :: rest => decide (c ≠ '/') && globMatch ps rest)
  | '[' :: ps, name =>
    (match name with
     | [] => false
     | c :: rest =>
       let negated := ps.head? = some '^'
       let ps1 := if negated then ps.tail else ps
       match parseClassRanges (ps1.length + 1) ps1 0 [] with
       | none => false
       | some (ranges, psRest) =>
         let inClass := ranges.any (fun r => decide (r.1 ≤ c) && decide (c ≤ r.2))
         if inClass = negated then false else globMatch psRest rest)
  | '\\' :: ps, name =>
    (match ps, name with
     | p :: ps2, c :: rest => (p == c) && globMatch ps2 rest
     | _, _ => false)
  | p :: ps, name =>
    (match name with
     | [] => false
     | c :: rest => (p == c) && globMatch ps rest)
termination_by p n => (n.length, p.length)

/-- An element of the compiled URL regular expression: a literal
character, `.` (any character except newline), or a starred version of
either. -/
inductive RAtom where
  | lit (c : Char)
  | anyChar
  | starLit (c : Char)
  | starAny
  deriving Repr, DecidableEq

/-- A regexp metacharacter other than `.` — outside the subset
`compileURLPattern` models. -/
def regexMeta (c : Char) : Bool :=
  c = '*' || c = '+' || c = '?' || c = '(' || c = ')' || c = '[' || c = ']' ||
  c = '\x7b' || c = '\x7d' || c = '^' || c = '$' || c = '|' || c = '\\'

/-- Compilation of the wildcard-translated URL pattern
(`strings.ReplaceAll(pattern, "*", ".*")` followed by
`regexp.Compile("^" + p + "$")`, rules.go:127-133).  Modelled for
patterns whose only metacharacters are `.` and the `*` of a preceding
`.*` pair; a pattern containing any other regexp metacharacter is
treated as failing to compile (Go would accept some of those — none
occurs in a wildcard-bearing URL permission pattern). -/
def compileURLPattern : List Char → Option (List RAtom)
  | [] => some []
  | '.' :: '*' :: rest => (compileURLPattern rest).map (RAtom.starAny :: ·)
  | '.' :: rest => (compileURLPattern rest).map (RAtom.anyChar :: ·)
  | c :: '*' :: rest =>
    if regexMeta c then none else (compileURLPattern rest).map (RAtom.starLit c :: ·)
  | c :: rest =>
    if regexMeta c then none else (compileURLPattern rest).map (RAtom.lit c :: ·)

/-- Matching of a compiled URL pattern against the whole string
(the `^`/`$` anchors of rules.go:129). -/
def reMatch : List RAtom → List Char → Bool
  | [], s => s.isEmpty
  | .lit c :: ps, s =>
    (match s with
     | [] => false
     | x :: rest => (x == c) && reMatch ps rest)
  | .anyChar :: ps, s =>
    (match s with
     | [] => false
     | x :: rest => decide (x ≠ '\n') && reMatch ps rest)
  | .starLit c :: ps, s =>
    reMatch ps s ||
      (match s with
       | [] => false
       | x :: rest => (x == c) && reMatch (.starLit c :: ps) rest)
  | .starAny :: ps, s =>
    reMatch ps s ||
      (match s with
       | [] => false
       | x :: rest => decide (x ≠ '\n') && reMatch (.starAny :: ps) rest)
termination_by ps s => (s.length, ps.length)

/-- `Rule.matchBashCommand` (rules.go:73-93): `prefix:*` and `prefix*`
match by literal command prefix; otherwise the command must equal the
pattern or start with it followed by a space. -/
def Rule.matchBashCommand (r : Rule) (input : List (String × Json)) : Bool :=
  match lookupString input "command" with
  | none => false
  | some command =>
    if r.Pattern.endsWith ":*" then
      command.startsWith (r.Pattern.dropRight 2)
    else if r.Pattern.endsWith "*" then
      command.startsWith (r.Pattern.dropRight 1)
    else (command == r.Pattern) || command.startsWith (r.Pattern ++ " ")

/-- `Rule.matchFilePath` (rules.go:95-118): glob against the base name or
the full cleaned path when the pattern has wildcards, substring
containment otherwise. -/
def Rule.matchFilePath (r : Rule) (input : List (String × Json)) : Bool :=
  match lookupString input "file_path" with
  | none => false
  | some fp0 =>
    let fp := goClean fp0
    if r.Pattern.contains '*' || r.Pattern.contains '?' then
      globMatch r.Pattern.toList (goBase fp).toList || globMatch r.Pattern.toList fp.toList
    else goContains fp r.Pattern

/-- `Rule.matchURL` (rules.go:120-138). -/
def Rule.matchURL (r : Rule) (input : List (String × Json)) : Bool :=
  match lookupString input "url" with
  | none => false
  | some url =>
    if r.Pattern.contains '*' then
      let translated := r.Pattern.toList.foldr
        (fun c acc => if c = '*' then '.' :: '*' :: acc else c :: acc) []
      match compileURLPattern translated with
      | none => false
      | some atoms => reMatch atoms url.toList
    else goContains url r.Pattern

/-- `Rule.Match` (rules.go:49-71): tool name (or `"*"`), then the
tool-category-specific pattern match; tools without a category-specific
matcher match whenever the tool name does. -/
def Rule.Match (r : Rule) (tool : String) (input : List (String × Json)) : Bool :=
  if r.Tool != tool && r.Tool != "*" then false
  else if r.Pattern.isEmpty then true
  else if tool == "Bash" then r.matchBashCommand input
  else if tool == "Read" || tool == "Write" || tool == "Edit" then r.matchFilePath input
  else if tool == "WebFetch" || tool == "WebSearch" then r.matchURL input
  else true

/-- `permissions.RuleSet` (rules.go:141-145). -/
structure RuleSet where
  allowRules : List Rule
  askRules : List Rule
  denyRules : List Rule

/-- `RuleSet.Check` (rules.go:183-207): deny rules first, then ask, then
allow, each returning its constant action at the first matching rule;
`ask` when nothing matches.  (`any` is the first-match loop: every rule
in a list would return the same constant.) -/
def RuleSet.Check (rs : RuleSet) (tool : String) (input : List (String × Json)) : Action :=
  if rs.denyRules.any (fun r => r.Match tool input) then .deny
  else if rs.askRules.any (fun r => r.Match tool input) then .ask
  else if rs.allowRules.any (fun r => r.Match tool input) then .allow
  else .ask

/-! ## The permission manager (`internal/permissions`, Manager) -/

/-- `permissions.Mode`. -/
inductive PermMode where
  | auto | ask | plan
  deriving Repr, DecidableEq

/-- `permissions.Manager` — the fields `Manager.Check` consults.  The
callback is not part of `Check` and is modelled at the executor layer. -/
structure Manager where
  mode : PermMode
  ruleSet : RuleSet
  sessionAllowed : List String
  skipPermissions : Bool

/-- `isWriteOperation` of the permission manager: note `KillShell` is not
in this set (unlike the agent's read-only tool set). -/
def isWriteOperation (tool : String) : Bool :=
  tool == "Write" || tool == "Edit" || tool == "Bash" || tool == "NotebookEdit"

/-- `Manager.AllowForSession`: records `sessionAllowed[tool] = true`
(the map of tool names is modelled as a duplicate-free list). -/
def Manager.AllowForSession (m : Manager) (tool : String) : Manager :=
  { m with sessionAllowed := m.sessionAllowed.insert tool }

/-- `Manager.Check`: `(allowed, error)`.  Order of the gates, as in the
source: skip-permissions flag, plan mode (denying write operations and
letting everything else through), the session allow set, then the rule
set (`allow ↦ (true, nil)`, `deny ↦ (false, err)`, `ask ↦ (false, nil)`,
the last meaning "ask the user"). -/
def Manager.Check (m : Manager) (tool : String) (input : List (String × Json)) :
    Bool × Option String :=
  if m.skipPermissions then (true, none)
  else if m.mode = .plan then
    if isWriteOperation tool then (false, some "write operations not allowed in plan mode")
    else (true, none)
  else if m.sessionAllowed.contains tool then (true, none)
  else
    match m.ruleSet.Check tool input with
    | .allow => (true, none)
    | .deny => (false, some "operation denied by permission rules")
    | .ask => (false, none)

/-! ## Agents (`internal/agent`, Agent and Config) -/

/-- `agent.Config` (the fields `CanExecuteTool` and the turn loop
consult; `Type` is implied by the configuration itself). -/
structure AgentConfig where
  Model : String
  MaxTokens : Nat
  AllowedTools : Option (List String)
  ReadOnly : Bool
  SystemPrompt : String

/-- The fixed `writeTools` map of `Agent.CanExecuteTool`. -/
def writeToolNames : List String :=
  ["Write", "Edit", "Bash", "NotebookEdit", "KillShell"]

/-- `Agent.CanExecuteTool`: a read-only agent is always denied the write
tools; otherwise the allow-list is consulted, `none` meaning "all
tools". -/
def AgentConfig.CanExecuteTool (cfg : AgentConfig) (toolName : String) : Bool :=
  if cfg.ReadOnly && writeToolNames.contains toolName then false
  else
    match cfg.AllowedTools with
    | none => true
    | some allowed => allowed.contains toolName

/-! ## Tool registry and executor (`internal/tools`) -/

/-- `tools.Result` (the `Metadata` map is dropped: no modelled path reads
it). -/
structure Result where
  Content : String
  IsError : Bool
  deriving Repr, DecidableEq

/-- One registered tool, reduced to what `Executor.Execute` consults: its
name, its permission flag and its `Execute` body.  The Go body returns
`(*Result, error)`; the executor only distinguishes `err != nil` (which
it converts to an error result) from a non-nil result, which
`Except String Result` captures. -/
structure ToolDef where
  name : String
  requiresPermission : Bool
  exec : Json → Except String Result

/-- `tools.PermissionChecker`: both methods return `(allowed, error)`. -/
structure PermissionChecker where
  check : String → List (String × Json) → Bool × Option String
  request : String → List (String × Json) → Bool × Option String

/-- The registry plus its executor: the name-keyed tool map (as an
association list) and the injected permission checker.  The
fire-and-forget `onToolStart`/`onToolEnd` notifications have no effect on
any result and are not modelled. -/
structure Executor where
  tools : List (String × ToolDef)
  permissionChecker : Option PermissionChecker

/-- `Registry.Get`. -/
def lookupTool (e : Executor) (name : String) : Option ToolDef :=
  (e.tools.find? (fun p => p.1 == name)).map (·.2)

/-- The loose second parse of `Executor.Execute`:
`json.Unmarshal(input, &inputMap)` succeeds exactly on a JSON object;
on any other value (or on undecodable bytes, which behave the same) the
map degrades to empty. -/
def parseInputMap : Json → List (String × Json)
  | .obj fields => fields
  | _ => []

/-- Steps (4)-(5) of `Executor.Execute`: run the tool body and convert a
returned error into an error-flagged result. -/
def runTool (t : ToolDef) (input : Json) : Result :=
  match t.exec input with
  | .ok r => r
  | .error e => ⟨e, true⟩

/-- `Executor.Execute` (glob.go part of `internal/tools`, lines 527-575):
unknown tool → error result; loose input parse; permission gate (an error
from `Check` — which is how a rule denial is reported — becomes an error
result without running the tool, `ask` triggers `RequestPermission`, a
refusal becomes "Permission denied by user"); then the tool body.  The
second component is the Go `error` return, which is `nil` on every
path. -/
def Executor.Execute (e : Executor) (name : String) (input : Json) :
    Result × Option String :=
  match lookupTool e name with
  | none => (⟨"Unknown tool: " ++ name, true⟩, none)
  | some tool =>
    let inputMap := parseInputMap input
    if tool.requiresPermission then
      match e.permissionChecker with
      | none => (runTool tool input, none)
      | some pc =>
        match pc.check name inputMap with
        | (_, some err) => (⟨err, true⟩, none)
        | (true, none) => (runTool tool input, none)
        | (false, none) =>
          match pc.request name inputMap with
          | (_, some err2) => (⟨err2, true⟩, none)
          | (true, none) => (runTool tool input, none)
          | (false, none) => (⟨"Permission denied by user", true⟩, none)
    else (runTool tool input, none)

/-- `llm.ToolUse`: a tool-use request streamed by the backend. -/
structure ToolUse where
  ID : String
  Name : String
  Input : List (String × Json)

/-- `llm.ToolResult`. -/
structure ToolResult where
  ToolUseID : String
  Content : String
  IsError : Bool
  deriving Repr, DecidableEq

/-- `Registry.ExecuteToolUse`: marshal the input map (which cannot fail
for a value already in memory as modelled), run `Executor.Execute`, and
re-package either outcome as a `ToolResult` carrying the request's
identifier.  The Go `error` return is `nil` on every path. -/
def ExecuteToolUse (e : Executor) (tu : ToolUse) : ToolResult :=
  match e.Execute tu.Name (Json.obj tu.Input) with
  | (_, some err) => ⟨tu.ID, err, true⟩
  | (result, none) => ⟨tu.ID, result.Content, result.IsError⟩

/-! ## Messages and conversations (`internal/llm`) -/

/-- `llm.Role`. -/
inductive Role where
  | user | assistant | system
  deriving Repr, DecidableEq

/-- `llm.ContentBlock`, as the tagged union its `Type` field encodes.
The `image` and `thinking` variants are never produced by the modelled
paths and are omitted. -/
inductive ContentBlock where
  | text (s : String)
  | toolUse (tu : ToolUse)
  | toolResult (tr : ToolResult)

/-- `llm.Message`: a role and its content blocks.  A conversation
(`llm.Conversation`) is its ordered message list, here a
`List Message`. -/
structure Message where
  role : Role
  content : List ContentBlock

/-! ## The agent executor (`internal/agent`, Executor) -/

/-- The `for _, tu := range toolUses` loop of `Executor.executeToolUses`
(agent executor, lines 233-255): one `ToolResult` per tool use, in
order — a synthesized error result (without calling `ExecuteToolUse`)
when the agent's `CanExecuteTool` denies the tool, the executor's result
otherwise.  (`ExecuteToolUse` never returns a non-nil Go error, so the
`err != nil` repackaging branch of the loop is dead.) -/
def toolResults (e : Executor) (cfg : AgentConfig) (toolUses : List ToolUse) :
    List ToolResult :=
  toolUses.map (fun tu =>
    if cfg.CanExecuteTool tu.Name then ExecuteToolUse e tu
    else ⟨tu.ID, "Tool '" ++ tu.Name ++ "' is not available for this agent type", true⟩)

/-- The two appends of `executeToolUses`: the assistant message carrying
every buffered tool-use block, then the user message carrying the
results. -/
def executeToolUses (e : Executor) (cfg : AgentConfig) (conv : List Message)
    (toolUses : List ToolUse) : List Message :=
  let assistantMsg : Message := ⟨.assistant, toolUses.map ContentBlock.toolUse⟩
  conv ++ [assistantMsg, ⟨.user, (toolResults e cfg toolUses).map ContentBlock.toolResult⟩]

/-- `llm.StreamEvent`, reduced to its tag and the payload each `case`
of `runAgent` reads; `other` covers the event types the switch ignores
(`tool_result`, `thinking`, `usage`). -/
inductive StreamEvent where
  | text (delta : String)
  | toolUse (tu : ToolUse)
  | done
  | error (msg : String)
  | other

/-- `agent.TaskResult`. -/
structure TaskResult where
  AgentID : String
  Status : String
  Result : String
  deriving Repr, DecidableEq

/-- Outcome of draining one streamed turn: either `runAgent` returns
(with the Go function's `TaskResult`; the conversation reached is carried
for completeness), or the outer loop continues with the updated
conversation and accumulated response. -/
inductive TurnStep where
  | finish (r : TaskResult) (conv : List Message)
  | next (conv : List Message) (response : String)

/-- The `for event := range events` body of `Executor.runAgent` (lines
169-212): text deltas accumulate into both the per-turn text and the
overall response; tool uses buffer; `done` appends the assistant text
message (when non-empty) and either executes the buffered tool uses and
keeps draining, or — with an empty buffer — completes with the
accumulated response; an error event completes with an error status.
Note the Go code clears neither `textResponse` nor `pendingToolUses`
after a `done`, and the model keeps that behaviour. -/
def processEvents (e : Executor) (cfg : AgentConfig) (agentID : String) :
    List StreamEvent → List Message → String → String → List ToolUse → TurnStep
  | [], conv, response, _, _ => .next conv response
  | ev :: rest, conv, response, textResponse, pending =>
    match ev with
    | .text d =>
      processEvents e cfg agentID rest conv (response ++ d) (textResponse ++ d) pending
    | .toolUse tu =>
      processEvents e cfg agentID rest conv response textResponse (pending ++ [tu])
    | .done =>
      let conv1 := if textResponse.length > 0 then
          conv ++ [⟨.assistant, [ContentBlock.text textResponse]⟩]
        else conv
      if pending.isEmpty then .finish ⟨agentID, "completed", response⟩ conv1
      else
        processEvents e cfg agentID rest (executeToolUses e cfg conv1 pending)
          response textResponse pending
    | .error msg => .finish ⟨agentID, "error", msg⟩ conv
    | .other => processEvents e cfg agentID rest conv response textResponse pending

/-- `const maxIterations = 50` of `Executor.runAgent`. -/
def maxIterations : Nat := 50

/-- The `for i := 0; i < maxIterations; i++` loop of `Executor.runAgent`
(lines 146-219).  The backend is the model of `Provider.Stream`: for each
call index it either fails (`Stream`'s error return, which `runAgent`
turns into an error `TaskResult`) or yields the finite list of events the
stream delivers.  `fuel` is `maxIterations - iter`; the second component
of the value is the number of backend calls made.  Falling off the loop
returns the partial response with the explicit annotation appended
(lines 215-219).  The wall-clock context timeout is not modelled. -/
def runAgentLoop (backend : Nat → Except String (List StreamEvent)) (e : Executor)
    (cfg : AgentConfig) (agentID : String) :
    Nat → Nat → List Message → String → TaskResult × Nat
  | 0, iter, _, response =>
    (⟨agentID, "completed", response ++ "\n\n(Agent reached maximum iterations)"⟩, iter)
  | fuel + 1, iter, conv, response =>
    match backend iter with
    | .error err => (⟨agentID, "error", err⟩, iter + 1)
    | .ok events =>
      match processEvents e cfg agentID events conv response "" [] with
      | .finish r _ => (r, iter + 1)
      | .next conv2 response2 =>
        runAgentLoop backend e cfg agentID fuel (iter + 1) conv2 response2

/-- `Executor.runAgent`: append the initial user message, then run the
bounded loop. -/
def runAgent (backend : Nat → Except String (List StreamEvent)) (e : Executor)
    (cfg : AgentConfig) (agentID : String) (conv0 : List Message) (prompt : String) :
    TaskResult × Nat :=
  runAgentLoop backend e cfg agentID maxIterations 0
    (conv0 ++ [⟨.user, [ContentBlock.text prompt]⟩]) ""

/-- `Executor.CleanupOldAgents` (agent executor, lines 291-308).  The Go
map and its unspecified iteration order are modelled as the list of
entries in that order.  The loop deletes every entry visited at count
`≥ maxAgents/2`, i.e. keeps exactly the first 50 entries encountered;
`maxAge` is the Go parameter the body never reads. -/
def CleanupOldAgents {α : Type} (maxAge : Nat) (activeAgents : List (String × α)) :
    List (String × α) :=
  let maxAgents : Nat := 100
  if activeAgents.length > maxAgents then activeAgents.take (maxAgents / 2)
  else activeAgents

/-! ## Specification predicates -/

/-- A streamed turn that keeps the outer loop going: no error event, and
every `done` arrives with a non-empty tool-use buffer (the boolean
argument tracks whether the buffer is already non-empty).  A turn whose
events satisfy `turnContinues evs false` is a "tool-use-requesting turn":
`runAgent` neither completes nor errors on it. -/
def turnContinues : List StreamEvent → Bool → Bool
  | [], _ => true
  | .text _ :: rest, hp => turnContinues rest hp
  | .toolUse _ :: rest, _ => turnContinues rest true
  | .done :: rest, hp => hp && turnContinues rest hp
  | .error _ :: _, _ => false
  | .other :: rest, hp => turnContinues rest hp

/-! ## Helper lemmas -/

/-- `Registry.ExecuteToolUse` stamps the request's identifier on the
result in every branch. -/
theorem ExecuteToolUse_toolUseID (e : Executor) (tu : ToolUse) :
    (ExecuteToolUse e tu).ToolUseID = tu.ID := by
  unfold ExecuteToolUse
  rcases h : e.Execute tu.Name (Json.obj tu.Input) with ⟨r, err⟩
  cases err <;> simp

/-- Any decomposition witnesses an index found by `strIndex`. -/
theorem strIndex_append_isSome (pre old post : List Char) :
    (strIndex (pre ++ old ++ post) old).isSome = true := by
  induction pre with
  | nil =>
    rw [strIndex.eq_def]
    have h : old.isPrefixOf (old ++ post) = true := by
      rw [List.isPrefixOf_iff_prefix]
      exact ⟨post, rfl⟩
    simp only [List.nil_append]
    rw [if_pos h]
    rfl
  | cons c pre ih =>
    rw [strIndex.eq_def]
    simp only [List.cons_append]
    split
    · rfl
    · simpa using ih

/-- The exact-match loop only ever appends to its accumulator. -/
theorem exactFindLoop_length_mono (content old : List Char) (replaceAll : Bool) :
    ∀ (fuel start : Nat) (acc : List Match),
      acc.length ≤ (exactFindLoop content old replaceAll fuel start acc).length := by
  intro fuel
  induction fuel with
  | zero => intro start acc; simp [exactFindLoop]
  | succ n ih =>
    intro start acc
    rw [exactFindLoop]
    cases h : strIndex (content.drop start) old with
    | none => simp
    | some idx =>
      simp only []
      by_cases hra : replaceAll = true
      · rw [if_pos hra]
        calc acc.length
            ≤ (acc ++ [(⟨start + idx, start + idx + old.length, old⟩ : Match)]).length := by
              simp
          _ ≤ _ := ih (start + idx + old.length)
                (acc ++ [(⟨start + idx, start + idx + old.length, old⟩ : Match)])
      · rw [if_neg hra]
        simp

/-- When the search still finds an occurrence, the loop grows the
accumulator by at least one match. -/
theorem exactFindLoop_grows (content old : List Char) (replaceAll : Bool)
    (fuel start : Nat) (acc : List Match) (idx : Nat)
    (h : strIndex (content.drop start) old = some idx) (hf : 0 < fuel) :
    acc.length + 1 ≤ (exactFindLoop content old replaceAll fuel start acc).length := by
  obtain ⟨n, rfl⟩ : ∃ n, fuel = n + 1 := ⟨fuel - 1, by omega⟩
  rw [exactFindLoop, h]
  simp only []
  by_cases hra : replaceAll = true
  · rw [if_pos hra]
    calc acc.length + 1
        = (acc ++ [(⟨start + idx, start + idx + old.length, old⟩ : Match)]).length := by simp
      _ ≤ _ := exactFindLoop_length_mono content old replaceAll n (start + idx + old.length)
            (acc ++ [(⟨start + idx, start + idx + old.length, old⟩ : Match)])
  · rw [if_neg hra]
    simp

/-- A snippet occurring in the content yields a non-empty exact match
list. -/
theorem exactFind_ne_nil (content old pre post : List Char)
    (hsub : content = pre ++ old ++ post) (replaceAll : Bool) :
    exactFind content old replaceAll ≠ [] := by
  have h1 : (strIndex (content.drop 0) old).isSome = true := by
    simpa [hsub] using strIndex_append_isSome pre old post
  obtain ⟨idx, hidx⟩ := Option.isSome_iff_exists.mp h1
  have := exactFindLoop_grows content old replaceAll (content.length + 1) 0 [] idx hidx
    (by omega)
  intro hcontra
  rw [exactFind] at hcontra
  rw [hcontra] at this
  simp at this

/-! ## Claim theorems -/

/-- C10: `CleanupOldAgents` ignores its `maxAge` argument entirely; a
live-agent map of at most 100 entries is left untouched, and a bigger map
is cut to exactly the first 50 entries in iteration order — not selected
by age. -/
theorem cleanupOldAgents_ignores_age (α : Type) (maxAge maxAge2 : Nat)
    (m : List (String × α)) :
    CleanupOldAgents maxAge m = CleanupOldAgents maxAge2 m ∧
    (m.length ≤ 100 → CleanupOldAgents maxAge m = m) ∧
    (100 < m.length → CleanupOldAgents maxAge m = m.take 50) := by
  refine ⟨rfl, fun h => ?_, fun h => ?_⟩
  · unfold CleanupOldAgents
    rw [if_neg (by omega)]
  · unfold CleanupOldAgents
    rw [if_pos (by omega)]

/-- Witness for C10 at concrete inputs: a 2-entry map survives any
`maxAge`, a 101-entry map is cut to its first 50 entries. -/
theorem cleanupOldAgents_ignores_age_witness :
    CleanupOldAgents 7 [("a", 1), ("b", 2)] = CleanupOldAgents 999999 [("a", 1), ("b", 2)] ∧
    CleanupOldAgents 7 [("a", 1), ("b", 2)] = [("a", 1), ("b", 2)] ∧
    CleanupOldAgents 7 ((List.range 101).map (fun i => (toString i, i))) =
      ((List.range 101).map (fun i => (toString i, i))).take 50 := by
  refine ⟨(cleanupOldAgents_ignores_age Nat 7 999999 [("a", 1), ("b", 2)]).1,
    (cleanupOldAgents_ignores_age Nat 7 999999 [("a", 1), ("b", 2)]).2.1 (by simp),
    (cleanupOldAgents_ignores_age Nat 7 999999
      ((List.range 101).map (fun i => (toString i, i)))).2.2 (by simp)⟩

/-- C3: a read-only agent is denied every tool in the fixed mutating set
(`Write`, `Edit`, `Bash`, `NotebookEdit`, `KillShell`) no matter what its
allow-list says; a non-read-only agent may execute a tool exactly when
its allow-list is `nil` or contains the tool's name. -/
theorem canExecuteTool_spec (cfg : AgentConfig) (name : String) :
    (cfg.ReadOnly = true → name ∈ writeToolNames → cfg.CanExecuteTool name = false) ∧
    (cfg.ReadOnly = false →
      (cfg.CanExecuteTool name = true ↔
        cfg.AllowedTools = none ∨ ∃ l, cfg.AllowedTools = some l ∧ name ∈ l)) := by
  constructor
  · intro hro hmem
    unfold AgentConfig.CanExecuteTool
    rw [if_pos]
    rw [hro]
    simpa using hmem
  · intro hro
    unfold AgentConfig.CanExecuteTool
    rw [if_neg (by rw [hro]; simp)]
    cases hat : cfg.AllowedTools with
    | none => simp
    | some allowed =>
      simp only [List.elem_iff]
      constructor
      · intro hmem
        exact Or.inr ⟨allowed, rfl, by simpa using hmem⟩
      · rintro (h | ⟨l, hl, hmem⟩)
        · cases h
        · cases hl
          simpa using hmem

/-- Witness for C3: a read-only agent listing `Write` in its allow-list
is still denied `Write`; a non-read-only agent with allow-list
`["Read"]` may execute `Read`. -/
theorem canExecuteTool_spec_witness :
    (AgentConfig.mk "" 0 (some ["Write"]) true "").CanExecuteTool "Write" = false ∧
    (AgentConfig.mk "" 0 (some ["Read"]) false "").CanExecuteTool "Read" = true :=
  ⟨(canExecuteTool_spec (AgentConfig.mk "" 0 (some ["Write"]) true "") "Write").1 rfl
      (by decide),
   ((canExecuteTool_spec (AgentConfig.mk "" 0 (some ["Read"]) false "") "Read").2 rfl).mpr
      (Or.inr ⟨["Read"], rfl, by decide⟩)⟩

/-- C1 (code evidence): on a file containing two textually-identical
occurrences of `old_string` and `replace_all` false, `EditTool.Execute`
does NOT report the ambiguous-match condition: every strategy's `Find`
returns only the first match when `replaceAll` is false, so the
`len(matches) > 1` check at edit.go:156 can never fire, and the call
silently replaces the first occurrence.  Here: content `"ab ab"`,
`old_string` `"ab"`, `new_string` `"X"` succeeds with one replacement
(yielding `"X ab"`) although the snippet occurs twice (second
conjunct). -/
theorem edit_silent_first_replacement :
    editExecute ['f'] (some "ab ab".toList) "ab".toList ['X'] false =
      ⟨.success 1 "exact", some "X ab".toList⟩ ∧
    (exactFind "ab ab".toList "ab".toList true).length = 2 := by
  constructor <;> rfl

/-- C4: when the content contains the (non-empty) snippet as an exact
substring, the cascade resolves via the `exact` strategy — the first of
the six in their fixed order — and its (non-empty) match list is the
result, with no merging from later strategies. -/
theorem exact_strategy_wins (content old pre post : List Char) (replaceAll : Bool)
    (hne : old ≠ []) (hsub : content = pre ++ old ++ post) :
    findMatches content old replaceAll = ("exact", exactFind content old replaceAll) ∧
    exactFind content old replaceAll ≠ [] := by
  have h1 := exactFind_ne_nil content old pre post hsub replaceAll
  have h2 : (exactFind content old replaceAll).isEmpty = false := by
    rw [List.isEmpty_eq_false]
    exact h1
  refine ⟨?_, h1⟩
  unfold findMatches findFirst replacers
  simp only [h2]
  rfl

/-- Witness for C4: `"lo w"` occurs exactly in `"hello world"`. -/
theorem exact_strategy_wins_witness :
    findMatches "hello world".toList "lo w".toList false =
      ("exact", exactFind "hello world".toList "lo w".toList false) ∧
    exactFind "hello world".toList "lo w".toList false ≠ [] :=
  exact_strategy_wins "hello world".toList "lo w".toList "hel".toList "orld".toList false
    (by decide) (by decide)

/-- C9: whenever `EditTool.Execute` returns an error-flagged result —
missing `file_path`/`old_string`, identical strings, missing file, no
strategy match, or the ambiguous-match condition — the target file's
content is unchanged; the file is written only on the non-error path. -/
theorem editExecute_error_preserves_file (filePath : List Char)
    (file : Option (List Char)) (oldStr newStr : List Char) (replaceAll : Bool)
    (h : (editExecute filePath file oldStr newStr replaceAll).result.isError = true) :
    (editExecute filePath file oldStr newStr replaceAll).file = file := by
  cases file with
  | none =>
    unfold editExecute
    split_ifs <;> rfl
  | some content =>
    simp only [editExecute] at h ⊢
    split_ifs at h ⊢ <;> first | rfl | simp [EditResult.isError] at h

/-- Witness for C9: an edit of a missing file errors and leaves the
(absent) file absent; an edit with no match leaves the content intact. -/
theorem editExecute_error_preserves_file_witness :
    (editExecute ['f'] none "a".toList "b".toList false).file = none ∧
    (editExecute ['f'] (some "hello".toList) "zzz".toList "b".toList false).file =
      some "hello".toList :=
  ⟨editExecute_error_preserves_file ['f'] none "a".toList "b".toList false (by rfl),
   editExecute_error_preserves_file ['f'] (some "hello".toList) "zzz".toList "b".toList false
     (by rfl)⟩

/-- C2: `RuleSet.Check` returns `deny` whenever any deny rule matches,
regardless of the ask and allow lists; with no deny match it returns
`ask` on an ask-rule match, then `allow` on an allow-rule match, and
defaults to `ask`.  In particular (last conjunct) a `deny "*"` rule
together with an `allow "Bash(git *)"` rule resolves `git status` to
deny. -/
theorem ruleSet_check_priority (rs : RuleSet) (tool : String)
    (input : List (String × Json)) :
    ((∃ r ∈ rs.denyRules, r.Match tool input = true) → rs.Check tool input = .deny) ∧
    ((∀ r ∈ rs.denyRules, r.Match tool input = false) →
      (∃ r ∈ rs.askRules, r.Match tool input = true) → rs.Check tool input = .ask) ∧
    ((∀ r ∈ rs.denyRules, r.Match tool input = false) →
      (∀ r ∈ rs.askRules, r.Match tool input = false) →
      (∃ r ∈ rs.allowRules, r.Match tool input = true) → rs.Check tool input = .allow) ∧
    ((∀ r ∈ rs.denyRules ++ rs.askRules ++ rs.allowRules, r.Match tool input = false) →
      rs.Check tool input = .ask) ∧
    RuleSet.Check ⟨[parseRule "Bash(git *)" Action.allow], [], [parseRule "*" Action.deny]⟩
      "Bash" [("command", Json.str "git status")] = Action.deny := by
  have hfalse : ∀ (l : List Rule), (∀ r ∈ l, r.Match tool input = false) →
      l.any (fun r => r.Match tool input) = false := by
    intro l h
    rw [List.any_eq_false]
    intro r hr
    simp [h r hr]
  refine ⟨?_, ?_, ?_, ?_, by rfl⟩
  · rintro ⟨r, hr, hm⟩
    have hd : rs.denyRules.any (fun r => r.Match tool input) = true :=
      List.any_eq_true.mpr ⟨r, hr, hm⟩
    unfold RuleSet.Check
    rw [if_pos hd]
  · rintro hdeny ⟨r, hr, hm⟩
    have ha : rs.askRules.any (fun r => r.Match tool input) = true :=
      List.any_eq_true.mpr ⟨r, hr, hm⟩
    unfold RuleSet.Check
    rw [if_neg (by simp [hfalse _ hdeny]), if_pos ha]
  · rintro hdeny hask ⟨r, hr, hm⟩
    have hal : rs.allowRules.any (fun r => r.Match tool input) = true :=
      List.any_eq_true.mpr ⟨r, hr, hm⟩
    unfold RuleSet.Check
    rw [if_neg (by simp [hfalse _ hdeny]), if_neg (by simp [hfalse _ hask]), if_pos hal]
  · intro hall
    have hdeny : ∀ r ∈ rs.denyRules, r.Match tool input = false := by
      intro r hr; exact hall r (by simp [hr])
    have hask : ∀ r ∈ rs.askRules, r.Match tool input = false := by
      intro r hr; exact hall r (by simp [hr])
    have hallow : ∀ r ∈ rs.allowRules, r.Match tool input = false := by
      intro r hr; exact hall r (by simp [hr])
    unfold RuleSet.Check
    rw [if_neg (by simp [hfalse _ hdeny]), if_neg (by simp [hfalse _ hask]),
      if_neg (by simp [hfalse _ hallow])]

/-- Witness for C2: the deny-wins branch applied at the concrete rule
pair of the claim. -/
theorem ruleSet_check_priority_witness :
    RuleSet.Check ⟨[parseRule "Bash(git *)" Action.allow], [], [parseRule "*" Action.deny]⟩
      "Bash" [("command", Json.str "git status")] = Action.deny :=
  (ruleSet_check_priority
      ⟨[parseRule "Bash(git *)" Action.allow], [], [parseRule "*" Action.deny]⟩
      "Bash" [("command", Json.str "git status")]).1
    ⟨parseRule "*" Action.deny, by decide, by rfl⟩

/-- C5 counterexample: the claim fails in plan mode.  After
`AllowForSession("Write")`, a `Check` for `Write` still returns
not-allowed when the manager is in plan mode, because the plan-mode
write-operation gate precedes the session allow set. -/
theorem sessionAllow_plan_mode_counterexample :
    ((Manager.mk .plan ⟨[], [], []⟩ [] false).AllowForSession "Write").Check "Write" [] =
      (false, some "write operations not allowed in plan mode") := by
  rfl

/-- C5 (amended): after `AllowForSession(t)` the tool is in the session
allow set, and — provided the manager is not in plan mode — every
`Check` for exactly that tool name returns allowed for every input,
bypassing rule evaluation entirely (deny rules included). -/
theorem sessionAllow_bypasses_rules (m : Manager) (tool : String)
    (input : List (String × Json)) :
    ((m.AllowForSession tool).sessionAllowed.contains tool = true) ∧
    (m.sessionAllowed.contains tool = true → m.mode ≠ .plan →
      (m.Check tool input).1 = true) := by
  constructor
  · unfold Manager.AllowForSession
    simp only []
    rw [List.elem_iff]
    exact List.mem_insert_self tool m.sessionAllowed
  · intro hc hm
    unfold Manager.Check
    by_cases hs : m.skipPermissions
    · rw [if_pos hs]
    · rw [if_neg hs, if_neg hm, if_pos hc]

/-- Witness for C5: a session-allowed `Bash` in ask mode is allowed even
though a deny-everything rule matches the input. -/
theorem sessionAllow_bypasses_rules_witness :
    (((Manager.mk .ask ⟨[], [], [parseRule "*" Action.deny]⟩ [] false).AllowForSession
        "Bash").Check "Bash" [("command", Json.str "rm -rf /")]).1 = true :=
  (sessionAllow_bypasses_rules
      ((Manager.mk .ask ⟨[], [], [parseRule "*" Action.deny]⟩ [] false).AllowForSession "Bash")
      "Bash" [("command", Json.str "rm -rf /")]).2
    ((sessionAllow_bypasses_rules
        (Manager.mk .ask ⟨[], [], [parseRule "*" Action.deny]⟩ [] false)
        "Bash" [("command", Json.str "rm -rf /")]).1)
    (by decide)

/-- C7: `Executor.Execute` never propagates a Go error (second component
always `nil`); an unknown tool name yields an error-flagged result; a
raw input that is not a JSON object degrades to an empty map for
permission inspection; and an error returned by the tool body is
converted into an error-flagged result. -/
theorem executor_execute_total (e : Executor) (name : String) (input : Json)
    (t : ToolDef) (msg : String) :
    ((e.Execute name input).2 = none) ∧
    (lookupTool e name = none → (e.Execute name input).1.IsError = true) ∧
    ((∀ fields, input ≠ Json.obj fields) → parseInputMap input = []) ∧
    (t.exec input = .error msg → runTool t input = ⟨msg, true⟩) := by
  refine ⟨?_, ?_, ?_, ?_⟩
  · simp only [Executor.Execute]
    repeat' split
    all_goals rfl
  · intro hl
    simp [Executor.Execute, hl]
  · intro h
    cases input <;> first | rfl | exact absurd rfl (h _)
  · intro h
    unfold runTool
    rw [h]

/-- Witness for C7: the empty registry knows no tool, a JSON string is
not an object, and a failing tool body is converted. -/
theorem executor_execute_total_witness :
    ((Executor.mk [] none).Execute "Nope" (Json.str "x")).2 = none ∧
    ((Executor.mk [] none).Execute "Nope" (Json.str "x")).1.IsError = true ∧
    parseInputMap (Json.str "x") = [] ∧
    runTool ⟨"Boom", false, fun _ => Except.error "kaput"⟩ (Json.str "x") =
      ⟨"kaput", true⟩ := by
  have h := executor_execute_total (Executor.mk [] none) "Nope" (Json.str "x")
    ⟨"Boom", false, fun _ => Except.error "kaput"⟩ "kaput"
  exact ⟨h.1, h.2.1 rfl, h.2.2.1 (fun fields hh => Json.noConfusion hh), h.2.2.2 rfl⟩

/-- C8: one batch of buffered tool uses appends exactly one assistant
message carrying all the `tool_use` blocks and then exactly one user
message carrying one `tool_result` per `tool_use`; the `i`-th result
carries the identifier of the `i`-th use (order preserved), and a use
denied by `CanExecuteTool` receives the synthesized error result — a
value that does not depend on the executor, which is never called for
it. -/
theorem executeToolUses_pairing (e : Executor) (cfg : AgentConfig)
    (conv : List Message) (toolUses : List ToolUse) :
    (executeToolUses e cfg conv toolUses =
      conv ++ [⟨.assistant, toolUses.map ContentBlock.toolUse⟩,
               ⟨.user, (toolResults e cfg toolUses).map ContentBlock.toolResult⟩]) ∧
    (toolResults e cfg toolUses).length = toolUses.length ∧
    (∀ i, i < toolUses.length →
      ((toolResults e cfg toolUses).getD i ⟨"", "", false⟩).ToolUseID =
        (toolUses.getD i ⟨"", "", []⟩).ID) ∧
    (∀ i, i < toolUses.length →
      cfg.CanExecuteTool ((toolUses.getD i ⟨"", "", []⟩).Name) = false →
      (toolResults e cfg toolUses).getD i ⟨"", "", false⟩ =
        ⟨(toolUses.getD i ⟨"", "", []⟩).ID,
         "Tool '" ++ (toolUses.getD i ⟨"", "", []⟩).Name ++
           "' is not available for this agent type", true⟩) := by
  have hlen : (toolResults e cfg toolUses).length = toolUses.length := by
    simp [toolResults]
  refine ⟨rfl, hlen, ?_, ?_⟩
  · intro i hi
    rw [List.getD_eq_getElem _ _ (show i < (toolResults e cfg toolUses).length by omega),
      List.getD_eq_getElem _ _ hi]
    simp only [toolResults, List.getElem_map]
    by_cases hc : cfg.CanExecuteTool toolUses[i].Name = true
    · rw [if_pos hc]
      exact ExecuteToolUse_toolUseID e toolUses[i]
    · rw [if_neg hc]
  · intro i hi hden
    rw [List.getD_eq_getElem _ _ hi] at hden ⊢
    rw [List.getD_eq_getElem _ _ (show i < (toolResults e cfg toolUses).length by omega)]
    simp only [toolResults, List.getElem_map]
    rw [if_neg (by simp [hden])]

/-- Witness for C8: a read-only agent with a `Read` and a `Write` use —
the second result pairs with `"id2"` and is the synthesized denial. -/
theorem executeToolUses_pairing_witness :
    (toolResults (Executor.mk [] none) ⟨"", 0, none, true, ""⟩
        [⟨"id1", "Read", []⟩, ⟨"id2", "Write", []⟩]).length = 2 ∧
    ((toolResults (Executor.mk [] none) ⟨"", 0, none, true, ""⟩
        [⟨"id1", "Read", []⟩, ⟨"id2", "Write", []⟩]).getD 1 ⟨"", "", false⟩).ToolUseID =
      "id2" ∧
    (toolResults (Executor.mk [] none) ⟨"", 0, none, true, ""⟩
        [⟨"id1", "Read", []⟩, ⟨"id2", "Write", []⟩]).getD 1 ⟨"", "", false⟩ =
      ⟨"id2", "Tool 'Write' is not available for this agent type", true⟩ := by
  have h := executeToolUses_pairing (Executor.mk [] none) ⟨"", 0, none, true, ""⟩ []
    [⟨"id1", "Read", []⟩, ⟨"id2", "Write", []⟩]
  refine ⟨h.2.1, ?_, ?_⟩
  · exact h.2.2.1 1 (by simp)
  · exact h.2.2.2 1 (by simp) (by rfl)

/-- Draining a turn whose events keep the loop going (no error, every
`done` with a non-empty tool-use buffer) always yields a `next` step. -/
theorem processEvents_continues (e : Executor) (cfg : AgentConfig) (agentID : String) :
    ∀ (evs : List StreamEvent) (conv : List Message) (resp tr : String)
      (pending : List ToolUse),
      turnContinues evs (!pending.isEmpty) = true →
      ∃ conv2 resp2,
        processEvents e cfg agentID evs conv resp tr pending = .next conv2 resp2 := by
  intro evs
  induction evs with
  | nil => intro conv resp tr pending h; exact ⟨conv, resp, rfl⟩
  | cons ev rest ih =>
    intro conv resp tr pending h
    cases ev with
    | text d => exact ih conv (resp ++ d) (tr ++ d) pending h
    | toolUse tu =>
      have h' : turnContinues rest true = true := h
      refine ih conv resp tr (pending ++ [tu]) ?_
      have hne : (!(pending ++ [tu]).isEmpty) = true := by simp
      rw [hne]
      exact h'
    | done =>
      have h' : ((!pending.isEmpty) && turnContinues rest (!pending.isEmpty)) = true := h
      rw [Bool.and_eq_true] at h'
      obtain ⟨hp, hrest⟩ := h'
      have hpe : pending.isEmpty = false := by
        revert hp; cases pending.isEmpty <;> simp
      simp only [processEvents, hpe, Bool.false_eq_true, if_false]
      exact ih _ resp tr pending hrest
    | error msg => simp [turnContinues] at h
    | other => exact ih conv resp tr pending h

theorem runAgentLoop_calls_le (backend : Nat → Except String (List StreamEvent))
    (e : Executor) (cfg : AgentConfig) (agentID : String) :
    ∀ (fuel iter : Nat) (conv : List Message) (resp : String),
      (runAgentLoop backend e cfg agentID fuel iter conv resp).2 ≤ iter + fuel := by
  intro fuel
  induction fuel with
  | zero => intro iter conv resp; simp [runAgentLoop]
  | succ n ih =>
    intro iter conv resp
    rw [runAgentLoop]
    cases backend iter with
    | error err => simp only []; omega
    | ok events =>
      simp only []
      split
      · simp only []; omega
      · rename_i conv2 resp2 heq
        exact le_trans (ih (iter + 1) conv2 resp2) (by omega)

theorem runAgentLoop_limit (backend : Nat → Except String (List StreamEvent))
    (e : Executor) (cfg : AgentConfig) (agentID : String)
    (hb : ∀ i, ∃ evs, backend i = .ok evs ∧ turnContinues evs false = true) :
    ∀ (fuel iter : Nat) (conv : List Message) (resp : String),
      ∃ ptext,
        runAgentLoop backend e cfg agentID fuel iter conv resp =
          (⟨agentID, "completed", ptext ++ "\n\n(Agent reached maximum iterations)"⟩,
           iter + fuel) := by
  intro fuel
  induction fuel with
  | zero => intro iter conv resp; exact ⟨resp, by simp [runAgentLoop]⟩
  | succ n ih =>
    intro iter conv resp
    obtain ⟨evs, hok, hcont⟩ := hb iter
    obtain ⟨conv2, resp2, hnext⟩ :=
      processEvents_continues e cfg agentID evs conv resp "" [] hcont
    obtain ⟨p, hp⟩ := ih (iter + 1) conv2 resp2
    have harith : iter + 1 + n = iter + (n + 1) := by omega
    rw [harith] at hp
    refine ⟨p, ?_⟩
    simp only [runAgentLoop, hok, hnext, hp]


/-- C6: for any backend the turn loop makes at most 50 backend calls;
for a backend that returns a tool-use-requesting turn on every call it
makes exactly 50 and then returns the accumulated partial text with the
explicit `(Agent reached maximum iterations)` annotation appended. -/
theorem agent_loop_iteration_cap (backend : Nat → Except String (List StreamEvent))
    (e : Executor) (cfg : AgentConfig) (agentID : String) (conv0 : List Message)
    (prompt : String) :
    ((runAgent backend e cfg agentID conv0 prompt).2 ≤ 50) ∧
    ((∀ i, ∃ evs, backend i = .ok evs ∧ turnContinues evs false = true) →
      (runAgent backend e cfg agentID conv0 prompt).2 = 50 ∧
      ∃ ptext, (runAgent backend e cfg agentID conv0 prompt).1 =
        ⟨agentID, "completed", ptext ++ "\n\n(Agent reached maximum iterations)"⟩) := by
  constructor
  · have h := runAgentLoop_calls_le backend e cfg agentID maxIterations 0
      (conv0 ++ [⟨.user, [ContentBlock.text prompt]⟩]) ""
    unfold runAgent
    simpa [maxIterations] using h
  · intro hb
    obtain ⟨p, hp⟩ := runAgentLoop_limit backend e cfg agentID hb maxIterations 0
      (conv0 ++ [⟨.user, [ContentBlock.text prompt]⟩]) ""
    unfold runAgent
    refine ⟨?_, p, ?_⟩
    · rw [hp]
      simp [maxIterations]
    · rw [hp]

/-- Witness for C6: a stub backend that answers every call with one
tool-use event and `done` is called exactly 50 times and the result is
limit-annotated. -/
theorem agent_loop_iteration_cap_witness :
    (runAgent (fun _ => .ok [.toolUse ⟨"t1", "Read", []⟩, .done]) ⟨[], none⟩
        ⟨"", 0, none, false, ""⟩ "a1" [] "go").2 = 50 ∧
    ∃ ptext, (runAgent (fun _ => .ok [.toolUse ⟨"t1", "Read", []⟩, .done]) ⟨[], none⟩
        ⟨"", 0, none, false, ""⟩ "a1" [] "go").1 =
      ⟨"a1", "completed", ptext ++ "\n\n(Agent reached maximum iterations)"⟩ :=
  (agent_loop_iteration_cap (fun _ => .ok [.toolUse ⟨"t1", "Read", []⟩, .done]) ⟨[], none⟩
      ⟨"", 0, none, false, ""⟩ "a1" [] "go").2
    (fun _ => ⟨[.toolUse ⟨"t1", "Read", []⟩, .done], rfl, rfl⟩)

end OSCode
